import Mathlib

/-!
Verification of the EVENTOS event-index application (src/app.py).

The program builds, once per process, a light in-memory index of well
intervention events out of a directory of CSV files, and resolves a selected
index entry back to its detail rows by re-scanning only the files recorded
for that entry.

Shallow embedding conventions:
  * All CSV cells are read with dtype=str; the four date/time columns are then
    parsed with pd.to_datetime(errors="coerce").  A parsed timestamp is
    modelled as a natural number at minute granularity; an unparsable or
    missing cell is `none`.  The calendar day of a timestamp is its minute
    count divided by 1440, which preserves exactly the order and same-day
    structure the code relies on.
  * Following the repository's fixed export schema (the same header in every
    CSV), a record carries every column of WANTED_COLS, each nullable; the
    remaining display columns (rig_name, activity_*, ...) are collapsed into
    one opaque `rest` field that the core logic never inspects.  Under this
    fixed schema the code's per-chunk column-presence guards
    (`if col in chunk.columns`) are always taken.
  * A source file (partition) is its name plus either `none` (the file cannot
    be opened / pd.read_csv raises) or the list of chunks produced by the
    chunked read, each chunk a list of records.
  * Exceptions escaping a function are modelled with `Except`.
  * pandas `groupby` drops rows whose group keys contain a null, sorts the
    groups ascending by the key tuple, aggregates `max`/`first` skipping
    nulls, and `sorted(set(...))` deduplicates and sorts; all of this is
    modelled below and proved about, not assumed.
  * pandas `sort_values` with the default kind is only guaranteed to produce
    a row order that is sorted by the requested key (ties are permuted in a
    library-internal way), so the development establishes sortedness plus
    permutation facts, never a particular tie order.
-/

/-- Timestamps are minutes; a calendar day is 1440 minutes. -/
def dayOf (t : Nat) : Nat := t / 1440

/-- One source record, projected to WANTED_COLS: every field is nullable text
except the parsed date/time fields.  `rest` stands for the remaining display
columns (rig_name, loc_fed_lease_no, activity_*, expr1, time_to,
event_objective_2), which the indexing and filtering logic never reads. -/
structure Rec where
  well_legal_name : Option String
  event_objective_1 : Option String
  event_code : Option String
  date_ops_start : Option Nat
  date_ops_end : Option Nat
  event_id : Option String
  time_from : Option Nat
  step_no : Option String
  rest : String
deriving DecidableEq

/-- The composite grouping key of build_index:
well_legal_name + event_objective_1 + event_code + date_ops_start.
Note that date_ops_start here is the exact parsed timestamp, as in the
source's groupby, not a calendar day. -/
structure EventKey where
  well_legal_name : String
  event_objective_1 : String
  event_code : String
  date_ops_start : Nat
deriving DecidableEq

/-- One CSV file in DATA_DIR: `data = none` models a file pd.read_csv cannot
read (the exception propagates); otherwise the chunked read yields the listed
chunks in file order. -/
structure Partition where
  name : String
  data : Option (List (List Rec))
deriving DecidableEq

/-- The exceptions build_index can raise: FileNotFoundError when DATA_DIR has
no CSV at all, the pd.read_csv error on an unreadable file, and the
RuntimeError when no valid event was found anywhere. -/
inductive BuildError where
  | noCsvFiles : BuildError
  | ioError : String → BuildError
  | emptySource : BuildError
deriving DecidableEq

/-- One row of a per-chunk `resumen` frame: the group key, the chunk-local
aggregates, and the name of the file the chunk came from. -/
structure PartialRow where
  key : EventKey
  date_ops_end : Option Nat
  event_id : Option String
  filename : String
deriving DecidableEq

/-- One row of the final index frame `index_df`. -/
structure IndexEntry where
  well_legal_name : String
  event_objective_1 : String
  event_code : String
  date_ops_start : Nat
  date_ops_end : Option Nat
  filename : List String
  event_id : Option String
  idx_id : String
deriving DecidableEq

/-- An index entry with the representative event_id forgotten; used to state
that rebuilds agree up to the first-encountered event_id tie-break. -/
structure IndexEntryNoRep where
  well_legal_name : String
  event_objective_1 : String
  event_code : String
  date_ops_start : Nat
  date_ops_end : Option Nat
  filename : List String
  idx_id : String
deriving DecidableEq

/-- Drop the representative event_id of an entry. -/
def IndexEntry.erase (e : IndexEntry) : IndexEntryNoRep :=
  ⟨e.well_legal_name, e.event_objective_1, e.event_code, e.date_ops_start,
   e.date_ops_end, e.filename, e.idx_id⟩

/-- The composite key of a finished index entry. -/
def IndexEntry.key (e : IndexEntry) : EventKey :=
  ⟨e.well_legal_name, e.event_objective_1, e.event_code, e.date_ops_start⟩

/-- Null-skipping maximum, as pandas max with skipna: a null contributes
nothing and an all-null column yields null. -/
def omax : Option Nat → Option Nat → Option Nat
  | none, b => b
  | some a, none => some a
  | some a, some b => some (max a b)

/-- Null-skipping maximum of a list of nullable values. -/
def listMaxO (l : List (Option Nat)) : Option Nat := l.foldr omax none

/-- First non-null value, as pandas groupby aggregation "first". -/
def ofirst : Option String → Option String → Option String
  | none, b => b
  | some a, _ => some a

/-- First non-null value of a list of nullable values. -/
def firstO (l : List (Option String)) : Option String := l.foldr ofirst none

/-- Strict lexicographic comparison of composite keys, matching the order in
which pandas groupby sorts the groups of
(well_legal_name, event_objective_1, event_code, date_ops_start). -/
def keyLt (a b : EventKey) : Bool :=
  if a.well_legal_name ≠ b.well_legal_name then
    decide (a.well_legal_name < b.well_legal_name)
  else if a.event_objective_1 ≠ b.event_objective_1 then
    decide (a.event_objective_1 < b.event_objective_1)
  else if a.event_code ≠ b.event_code then
    decide (a.event_code < b.event_code)
  else decide (a.date_ops_start < b.date_ops_start)

/-- Propositional form of keyLt. -/
def keyLtP (a b : EventKey) : Prop :=
  a.well_legal_name < b.well_legal_name ∨
    (a.well_legal_name = b.well_legal_name ∧
      (a.event_objective_1 < b.event_objective_1 ∨
        (a.event_objective_1 = b.event_objective_1 ∧
          (a.event_code < b.event_code ∨
            (a.event_code = b.event_code ∧
              a.date_ops_start < b.date_ops_start)))))

/-- Strict comparison of file names, for sorted(set(...)). -/
def strLt (a b : String) : Bool := decide (a < b)

/-- Ordered insertion into a duplicate-free ascending list, skipping an
element already present; building block of sorted(set(...)) and of the sorted
group-key order of pandas groupby. -/
def insSorted {α : Type} [DecidableEq α] (lt : α → α → Bool) (a : α) :
    List α → List α
  | [] => [a]
  | b :: t => if a = b then b :: t else if lt a b then a :: b :: t
              else b :: insSorted lt a t

/-- Deduplicated ascending sort of a list. -/
def sortedSet {α : Type} [DecidableEq α] (lt : α → α → Bool)
    (l : List α) : List α := l.foldr (insSorted lt) []

/-- Ordered insertion keeping duplicates; building block for modelling the
sorted row order produced by sort_values (only its sortedness and
permutation facts are ever used, since the library's default sort kind fixes
no particular tie order). -/
def insOrd {α : Type} (le : α → α → Bool) (a : α) : List α → List α
  | [] => [a]
  | b :: t => if le a b then a :: b :: t else b :: insOrd le a t

/-- A sort of a list by the comparison le. -/
def sortBy {α : Type} (le : α → α → Bool) (l : List α) : List α :=
  l.foldr (insOrd le) []

/-- A record participates in the index only with a fully defined composite
key; pandas groupby silently drops rows whose group keys contain a null. -/
def completeKey (r : Rec) : Bool :=
  r.well_legal_name.isSome && r.event_objective_1.isSome &&
    r.event_code.isSome && r.date_ops_start.isSome

/-- The composite key of a record; only ever read on complete-key records,
where the defaults are unreachable. -/
def recKey (r : Rec) : EventKey :=
  ⟨r.well_legal_name.getD "", r.event_objective_1.getD "",
   r.event_code.getD "", r.date_ops_start.getD 0⟩

/-- chunk.groupby(grp_cols).agg(date_ops_end max, event_id first) followed by
resumen["filename"] = f.name, for one chunk (app.py lines 82-102): one
summary row per distinct complete key of the chunk, keys ascending, with the
null-skipping chunk-local aggregates. -/
def chunkSummary (fname : String) (chunk : List Rec) : List PartialRow :=
  let cs := chunk.filter completeKey
  (sortedSet keyLt (cs.map recKey)).map (fun k =>
    ⟨k,
     listMaxO ((cs.filter (fun r => decide (recKey r = k))).map
       (·.date_ops_end)),
     firstO ((cs.filter (fun r => decide (recKey r = k))).map (·.event_id)),
     fname⟩)

/-- The summaries one readable file contributes, chunks in file order. -/
def partSummary (p : Partition) : List PartialRow :=
  ((p.data.getD []).map (chunkSummary p.name)).flatten

/-- The scan of all CSV files (app.py lines 59-102): each readable file
contributes its chunk summaries in order; the first unreadable file raises
and the exception propagates out of build_index. -/
def scanParts : List Partition → Except BuildError (List PartialRow)
  | [] => Except.ok []
  | p :: ps =>
      match p.data with
      | none => Except.error (BuildError.ioError p.name)
      | some _ =>
          match scanParts ps with
          | Except.error e => Except.error e
          | Except.ok rest => Except.ok (partSummary p ++ rest)

/-- collect_files (app.py line 110): sorted deduplicated file names. -/
def collect_files (l : List String) : List String := sortedSet strLt l

/-- One row of the final index frame for group key k of the concatenated
chunk summaries idx (app.py lines 113-134). -/
def mkEntry (idx : List PartialRow) (i : Nat) (k : EventKey) : IndexEntry :=
  let grp := idx.filter (fun pr => decide (pr.key = k))
  ⟨k.well_legal_name, k.event_objective_1, k.event_code, k.date_ops_start,
   listMaxO (grp.map (·.date_ops_end)),
   collect_files (grp.map (·.filename)),
   firstO (grp.map (·.event_id)),
   Nat.repr i⟩

/-- Numbering of the sorted group keys with idx_id = str(row position). -/
def mkEntries (idx : List PartialRow) : Nat → List EventKey → List IndexEntry
  | _, [] => []
  | i, k :: ks => mkEntry idx i k :: mkEntries idx (i + 1) ks

/-- The final groupby over the concatenated summaries, reset_index and the
idx_id column (app.py lines 107-134): one entry per distinct key, keys
ascending, idx_id the decimal row position. -/
def finalizeIndex (idx : List PartialRow) : List IndexEntry :=
  mkEntries idx 0 (sortedSet keyLt (idx.map (·.key)))

/-- build_index (app.py lines 34-138) without the module-level cache: raises
FileNotFoundError when DATA_DIR holds no CSV, propagates the read error of
an unreadable file, raises RuntimeError when no chunk yielded a complete-key
event, and otherwise aggregates the per-chunk summaries into the index. -/
def build_index (st : List Partition) : Except BuildError (List IndexEntry) :=
  if st.isEmpty then Except.error BuildError.noCsvFiles
  else
    match scanParts st with
    | Except.error e => Except.error e
    | Except.ok idx =>
        if idx.isEmpty then Except.error BuildError.emptySource
        else Except.ok (finalizeIndex idx)

/-- The module-level cache _INDEX_DF around build_index: a cached frame is
returned as is without touching the source; the frame is stored only when
the build succeeds, so a failed build leaves the cache unset. -/
def build_index_cached (cache : Option (List IndexEntry))
    (st : List Partition) :
    Except BuildError (List IndexEntry) × Option (List IndexEntry) :=
  match cache with
  | some t => (Except.ok t, some t)
  | none =>
      match build_index st with
      | Except.ok t => (Except.ok t, some t)
      | Except.error e => (Except.error e, none)

/-- All partitions of the source are readable. -/
def readableAll (st : List Partition) : Prop :=
  ∀ p ∈ st, p.data.isSome = true

instance (st : List Partition) : Decidable (readableAll st) :=
  inferInstanceAs (Decidable (∀ p ∈ st, p.data.isSome = true))

/-- The chunk summaries the whole scan concatenates, in enumeration order. -/
def idxRows (st : List Partition) : List PartialRow :=
  (st.map partSummary).flatten

/-- The records of one file, tagged with its name. -/
def partRecs (p : Partition) : List (String × Rec) :=
  ((p.data.getD []).flatten).map (fun r => (p.name, r))

/-- All records of the source in enumeration order, tagged with the name of
the file each one came from. -/
def srcRecs (st : List Partition) : List (String × Rec) :=
  (st.map partRecs).flatten

/-- The complete-key records of the source in enumeration order. -/
def srcComplete (st : List Partition) : List (String × Rec) :=
  (srcRecs st).filter (fun pr => completeKey pr.2)

/-- The complete-key records of the source carrying a given composite key. -/
def keyRecs (st : List Partition) (k : EventKey) : List (String × Rec) :=
  (srcComplete st).filter (fun pr => decide (recKey pr.2 = k))

/-- The distinct composite keys of the source, ascending. -/
def canonKeys (st : List Partition) : List EventKey :=
  sortedSet keyLt ((srcComplete st).map (fun pr => recKey pr.2))

/-- The null-skipping maximum date_ops_end over the records of a key. -/
def canonEnd (st : List Partition) (k : EventKey) : Option Nat :=
  listMaxO ((keyRecs st k).map (fun pr => pr.2.date_ops_end))

/-- The first non-null event_id over the records of a key, in enumeration
order. -/
def canonRep (st : List Partition) (k : EventKey) : Option String :=
  firstO ((keyRecs st k).map (fun pr => pr.2.event_id))

/-- The sorted deduplicated names of the files holding records of a key. -/
def canonFiles (st : List Partition) (k : EventKey) : List String :=
  sortedSet strLt ((keyRecs st k).map (fun pr => pr.1))

/-- The index entry the source determines for key k at row position i. -/
def canonEntry (st : List Partition) (i : Nat) (k : EventKey) : IndexEntry :=
  ⟨k.well_legal_name, k.event_objective_1, k.event_code, k.date_ops_start,
   canonEnd st k, canonFiles st k, canonRep st k, Nat.repr i⟩

/-- The canonical entries of a key list, numbered from i. -/
def canonEntries (st : List Partition) :
    Nat → List EventKey → List IndexEntry
  | _, [] => []
  | i, k :: ks => canonEntry st i k :: canonEntries st (i + 1) ks

/-- The index the source determines: one entry per distinct composite key of
its complete-key records, keys ascending, entries numbered from 0. -/
def canonTable (st : List Partition) : List IndexEntry :=
  canonEntries st 0 (canonKeys st)

/-- The complete-key records of one file carrying a given key. -/
def pKeyRecs (p : Partition) (k : EventKey) : List Rec :=
  (((p.data.getD []).flatten).filter completeKey).filter
    (fun r => decide (recKey r = k))

/-- The complete-key records of one chunk carrying a given key. -/
def ckOf (c : List Rec) (k : EventKey) : List Rec :=
  (c.filter completeKey).filter (fun r => decide (recKey r = k))

/-- The flattened content of a file: its name with its records in order,
forgetting the chunk boundaries of the batched read. -/
def partFlat (p : Partition) : String × List Rec :=
  (p.name, (p.data.getD []).flatten)

/-- Two source states hold the same data when their files, identified by
name and record content, agree as a multiset: the batch (chunk) structure
inside each file and the enumeration order of the files may differ. -/
def SameSource (st₁ st₂ : List Partition) : Prop :=
  (st₁.map partFlat).Perm (st₂.map partFlat)

/-- The decimal digits of a number, most significant first. -/
def natDigs (n : Nat) : List Nat :=
  if n < 10 then [n] else natDigs (n / 10) ++ [n % 10]
decreasing_by
  exact Nat.div_lt_self (by omega) (by omega)

/-- Reading decimal digits back. -/
def undigs (l : List Nat) : Nat := l.foldl (fun a d => a * 10 + d) 0

/-- The per-row mask of load_event_detail (app.py lines 190-203): well
equality always; objective/code equality only when the selection component
is present; same-calendar-day equality on date_ops_start when the entry's
start is a date.  A null field never satisfies an applied equality, exactly
as a pandas NaN compares unequal. -/
def detailPred (well : String) (event_objective_1 event_code : Option String)
    (date_start_date : Option Nat) (r : Rec) : Bool :=
  decide (r.well_legal_name = some well) &&
  (match event_objective_1 with
   | some o => decide (r.event_objective_1 = some o)
   | none => true) &&
  (match event_code with
   | some c => decide (r.event_code = some c)
   | none => true) &&
  (match date_start_date with
   | some d =>
       match r.date_ops_start with
       | some t => decide (dayOf t = d)
       | none => false
   | none => true)

/-- DATA_DIR / fname resolution at detail time. -/
def findFile (st : List Partition) (fname : String) : Option Partition :=
  st.find? (fun p => decide (p.name = fname))

/-- The chunked scan of load_event_detail over the entry's recorded files
(app.py lines 171-209): a recorded file that no longer exists is skipped
with a printed warning and the scan continues; a file that exists but cannot
be read makes pd.read_csv raise; each readable file contributes the matching
rows of its chunks in order. -/
def gatherDetail (well : String) (obj code : Option String)
    (dsd : Option Nat) (st : List Partition) :
    List String → Except String (List Rec)
  | [] => Except.ok []
  | f :: fs =>
      match findFile st f with
      | none => gatherDetail well obj code dsd st fs
      | some p =>
          match p.data with
          | none => Except.error p.name
          | some chunks =>
              match gatherDetail well obj code dsd st fs with
              | Except.error e => Except.error e
              | Except.ok rest =>
                  Except.ok
                    ((chunks.map (fun c =>
                      c.filter (detailPred well obj code dsd))).flatten ++
                      rest)

/-- Strict nulls-last ascending comparison of nullable timestamps. -/
def optTsLtTop : Option Nat → Option Nat → Bool
  | some x, some y => decide (x < y)
  | some _, none => true
  | none, _ => false

/-- Nulls-last ascending comparison of nullable step numbers (step_no stays
the text it was read as, so ties of time_from order by string comparison). -/
def optStrLeTop : Option String → Option String → Bool
  | none, none => true
  | none, some _ => false
  | some _, none => true
  | some a, some b => decide (a ≤ b)

/-- The (time_from, step_no) ascending nulls-last row order of the final
sort_values of load_event_detail (app.py lines 222-225). -/
def rowLe (a b : Rec) : Bool :=
  if a.time_from = b.time_from then optStrLeTop a.step_no b.step_no
  else optTsLtTop a.time_from b.time_from

/-- load_event_detail (app.py lines 141-227): gather the matching rows of
the entry's recorded files, then sort them by (time_from, step_no) ascending
with nulls last; with no matching rows an empty frame is returned. -/
def load_event_detail (well : String) (obj code : Option String)
    (date_start : Option Nat) (filenames : List String)
    (st : List Partition) : Except String (List Rec) :=
  match gatherDetail well obj code (date_start.map dayOf) st filenames with
  | Except.error e => Except.error e
  | Except.ok rows => Except.ok (sortBy rowLe rows)

/-- Descending nulls-last comparison on date_ops_end, the event-list order
of a well (app.py lines 251-254). -/
def endDescLe (a b : IndexEntry) : Bool :=
  match a.date_ops_end, b.date_ops_end with
  | none, none => true
  | none, some _ => false
  | some _, none => true
  | some x, some y => decide (y ≤ x)

/-- The event rows of one well (app.py lines 246-254): the index filtered by
well_legal_name and sorted by date_ops_end descending, nulls last. -/
def listEventsFor (t : List IndexEntry) (well : String) :
    List IndexEntry :=
  sortBy endDescLe (t.filter (fun e => decide (e.well_legal_name = well)))

/-- The selection lookup of the route (app.py lines 278-281): the first row
of the well's event list whose idx_id equals the requested event parameter;
none when the parameter matches no row, in which case no detail is loaded
and the page renders without a detail table. -/
def selectEvent (t : List IndexEntry) (well : String)
    (evento_sel : String) : Option IndexEntry :=
  (listEventsFor t well).find? (fun e => decide (e.idx_id = evento_sel))

/-- The rows currently stored under a file name; an absent name holds no
rows. -/
def srcRowsOfFile (st : List Partition) (f : String) : List Rec :=
  match findFile st f with
  | some p => (p.data.getD []).flatten
  | none => []

/-- Stated from the claim wording for resolve, to be compared with the
implementation: a row matches when its well equals the entry's well, its
objective and code equal the entry's key components whenever those are
present (an absent component matches every row), and its date_ops_start
falls on the calendar day of the entry's start. -/
def resolveSpecPred (well : String) (obj code : Option String) (d : Nat)
    (r : Rec) : Bool :=
  decide (r.well_legal_name = some well) &&
  (match obj with
   | some o => decide (r.event_objective_1 = some o)
   | none => true) &&
  (match code with
   | some c => decide (r.event_code = some c)
   | none => true) &&
  (match r.date_ops_start with
   | some t => decide (dayOf t = d)
   | none => false)

/-- Stated from the claim wording: the matching rows of the entry's locator
files, concatenated in locator order. -/
def resolveSpecRows (well : String) (obj code : Option String) (d : Nat)
    (files : List String) (st : List Partition) : List Rec :=
  (files.map (fun f =>
    (srcRowsOfFile st f).filter (resolveSpecPred well obj code d))).flatten

/-- A recorded file name either resolves to a readable file or to no file at
all (deleted since the build). -/
def readableOrAbsent (st : List Partition) (f : String) : Prop :=
  ∀ p, findFile st f = some p → p.data.isSome = true

/-- Sample records over a single well, objective and code (distinct keys
then differ only in the parsed timestamp); time values are minutes, so 480
and 720 fall on the same calendar day. -/
def recA : Rec :=
  ⟨some "W", some "O", some "C", some 480, some 500, none, some 490, none,
   "r0"⟩

/-- A record of the same well on the same day, four hours later. -/
def recB : Rec :=
  ⟨some "W", some "O", some "C", some 720, some 9000, some "E2", some 485,
   none, "r1"⟩

/-- A record sharing the key of recA with a null date_ops_end and an
event_id. -/
def recAe : Rec :=
  ⟨some "W", some "O", some "C", some 480, none, some "E1", none, none,
   "r2"⟩

/-- A record sharing the key of recA with a null event_id. -/
def recNoId : Rec :=
  ⟨some "W", some "O", some "C", some 480, some 100, none, none, none,
   "r3"⟩

/-- A record with a null well, hence no complete composite key. -/
def recNoKey : Rec :=
  ⟨none, some "O", some "C", some 480, some 500, none, none, none, "r4"⟩

/-- One file holding recA and recB in one chunk. -/
def stOne : List Partition := [⟨"a.csv", some [[recA, recB]]⟩]

/-- The same file content split into two chunks. -/
def stTwo : List Partition := [⟨"a.csv", some [[recA], [recB]]⟩]

/-- One file where the earliest record of the key has a null event_id and a
later one carries E1. -/
def stRep : List Partition := [⟨"a.csv", some [[recNoId, recAe]]⟩]

/-- One file holding two records of one key, the second with a null
date_ops_end. -/
def stAgg : List Partition := [⟨"a.csv", some [[recA, recAe]]⟩]

/-- A readable file followed by an unreadable one. -/
def stBad : List Partition :=
  [⟨"a.csv", some [[recA]]⟩, ⟨"bad.csv", none⟩]

/-- A readable source none of whose records has a complete key. -/
def stNoKeys : List Partition := [⟨"a.csv", some [[recNoKey]]⟩]

/-- The index build_index produces on stOne (and on stTwo). -/
def tblDay : List IndexEntry :=
  [⟨"W", "O", "C", 480, some 500, ["a.csv"], none, "0"⟩,
   ⟨"W", "O", "C", 720, some 9000, ["a.csv"], some "E2", "1"⟩]

theorem omax_none_right (a : Option Nat) : omax a none = a := by
  cases a <;> rfl

theorem omax_assoc (a b c : Option Nat) :
    omax (omax a b) c = omax a (omax b c) := by
  cases a <;> cases b <;> cases c <;> simp [omax, Nat.max_assoc]

theorem omax_comm (a b : Option Nat) : omax a b = omax b a := by
  cases a <;> cases b <;> simp [omax, Nat.max_comm]

theorem listMaxO_append (l₁ l₂ : List (Option Nat)) :
    listMaxO (l₁ ++ l₂) = omax (listMaxO l₁) (listMaxO l₂) := by
  induction l₁ with
  | nil => simp [listMaxO, omax]
  | cons a t ih => simp [listMaxO, List.foldr] at ih ⊢; rw [ih, omax_assoc]

theorem ofirst_assoc (a b c : Option String) :
    ofirst (ofirst a b) c = ofirst a (ofirst b c) := by
  cases a <;> cases b <;> cases c <;> rfl

theorem firstO_append (l₁ l₂ : List (Option String)) :
    firstO (l₁ ++ l₂) = ofirst (firstO l₁) (firstO l₂) := by
  induction l₁ with
  | nil => simp [firstO, ofirst]
  | cons a t ih => simp [firstO, List.foldr] at ih ⊢; rw [ih, ofirst_assoc]

theorem firstO_none_right (a : Option String) : ofirst a none = a := by
  cases a <;> rfl

theorem listMaxO_perm {l₁ l₂ : List (Option Nat)} (h : l₁.Perm l₂) :
    listMaxO l₁ = listMaxO l₂ := by
  induction h with
  | nil => rfl
  | cons a _ ih => simp [listMaxO, List.foldr] at ih ⊢; rw [ih]
  | swap a b t =>
      simp only [listMaxO, List.foldr]
      rw [← omax_assoc, ← omax_assoc, omax_comm a b]
  | trans _ _ ih₁ ih₂ => exact ih₁.trans ih₂

theorem keyLt_iff (a b : EventKey) : keyLt a b = true ↔ keyLtP a b := by
  rcases a with ⟨aw, ao, ac, ad⟩; rcases b with ⟨bw, bo, bc, bd⟩
  by_cases hw : aw = bw <;> by_cases ho : ao = bo <;> by_cases hc : ac = bc <;>
    simp [keyLt, keyLtP, hw, ho, hc]

theorem keyLt_irrefl (a : EventKey) : keyLt a a = false := by
  simp [keyLt]

theorem keyLt_trans (a b c : EventKey) (h₁ : keyLt a b = true)
    (h₂ : keyLt b c = true) : keyLt a c = true := by
  rw [keyLt_iff] at h₁ h₂ ⊢
  unfold keyLtP at h₁ h₂ ⊢
  rcases h₁ with h₁ | ⟨e₁, h₁⟩
  · rcases h₂ with h₂ | ⟨e₂, h₂⟩
    · exact Or.inl (lt_trans h₁ h₂)
    · exact Or.inl (e₂ ▸ h₁)
  · rcases h₂ with h₂ | ⟨e₂, h₂⟩
    · exact Or.inl (by rw [e₁]; exact h₂)
    · refine Or.inr ⟨e₁.trans e₂, ?_⟩
      rcases h₁ with h₁ | ⟨f₁, h₁⟩
      · rcases h₂ with h₂ | ⟨f₂, h₂⟩
        · exact Or.inl (lt_trans h₁ h₂)
        · exact Or.inl (f₂ ▸ h₁)
      · rcases h₂ with h₂ | ⟨f₂, h₂⟩
        · exact Or.inl (by rw [f₁]; exact h₂)
        · refine Or.inr ⟨f₁.trans f₂, ?_⟩
          rcases h₁ with h₁ | ⟨g₁, h₁⟩
          · rcases h₂ with h₂ | ⟨g₂, h₂⟩
            · exact Or.inl (lt_trans h₁ h₂)
            · exact Or.inl (g₂ ▸ h₁)
          · rcases h₂ with h₂ | ⟨g₂, h₂⟩
            · exact Or.inl (by rw [g₁]; exact h₂)
            · exact Or.inr ⟨g₁.trans g₂, lt_trans h₁ h₂⟩

theorem keyLt_total (a b : EventKey) (h : a ≠ b) :
    keyLt a b = true ∨ keyLt b a = true := by
  rw [keyLt_iff, keyLt_iff]
  unfold keyLtP
  rcases a with ⟨aw, ao, ac, ad⟩; rcases b with ⟨bw, bo, bc, bd⟩
  simp only
  rcases lt_trichotomy aw bw with hw | hw | hw
  · exact Or.inl (Or.inl hw)
  · subst hw
    rcases lt_trichotomy ao bo with ho | ho | ho
    · exact Or.inl (Or.inr ⟨rfl, Or.inl ho⟩)
    · subst ho
      rcases lt_trichotomy ac bc with hc | hc | hc
      · exact Or.inl (Or.inr ⟨rfl, Or.inr ⟨rfl, Or.inl hc⟩⟩)
      · subst hc
        rcases lt_trichotomy ad bd with hd | hd | hd
        · exact Or.inl (Or.inr ⟨rfl, Or.inr ⟨rfl, Or.inr ⟨rfl, hd⟩⟩⟩)
        · exact absurd (by rw [hd]) h
        · exact Or.inr (Or.inr ⟨rfl, Or.inr ⟨rfl, Or.inr ⟨rfl, hd⟩⟩⟩)
      · exact Or.inr (Or.inr ⟨rfl, Or.inr ⟨rfl, Or.inl hc⟩⟩)
    · exact Or.inr (Or.inr ⟨rfl, Or.inl ho⟩)
  · exact Or.inr (Or.inl hw)

theorem strLt_irrefl (a : String) : strLt a a = false := by
  simp [strLt]

theorem strLt_trans (a b c : String) (h₁ : strLt a b = true)
    (h₂ : strLt b c = true) : strLt a c = true := by
  simp only [strLt, decide_eq_true_eq] at h₁ h₂ ⊢
  exact lt_trans h₁ h₂

theorem strLt_total (a b : String) (h : a ≠ b) :
    strLt a b = true ∨ strLt b a = true := by
  simp only [strLt, decide_eq_true_eq]
  exact lt_or_gt_of_ne h

theorem lt_asymmB {α : Type} {lt : α → α → Bool}
    (htrans : ∀ a b c, lt a b = true → lt b c = true → lt a c = true)
    (hirrefl : ∀ a, lt a a = false) {a b : α}
    (h : lt a b = true) : lt b a = false := by
  cases hba : lt b a
  · rfl
  · have := htrans a b a h hba
    rw [hirrefl a] at this
    exact absurd this Bool.false_ne_true

theorem mem_insSorted {α : Type} [DecidableEq α] (lt : α → α → Bool)
    (a x : α) (l : List α) : x ∈ insSorted lt a l ↔ x = a ∨ x ∈ l := by
  induction l with
  | nil => simp [insSorted]
  | cons b t ih =>
      simp only [insSorted]
      by_cases hab : a = b
      · subst hab
        rw [if_pos rfl]
        simp only [List.mem_cons]
        tauto
      · rw [if_neg hab]
        by_cases hlt : lt a b = true
        · rw [if_pos hlt]
          simp [List.mem_cons]
        · rw [if_neg hlt]
          simp only [List.mem_cons, ih]
          tauto

theorem mem_sortedSet {α : Type} [DecidableEq α] (lt : α → α → Bool)
    (x : α) (l : List α) : x ∈ sortedSet lt l ↔ x ∈ l := by
  induction l with
  | nil => simp [sortedSet]
  | cons b t ih =>
      simp only [sortedSet, List.foldr] at ih ⊢
      rw [mem_insSorted, ih, List.mem_cons]

theorem pairwise_insSorted {α : Type} [DecidableEq α] {lt : α → α → Bool}
    (htrans : ∀ a b c, lt a b = true → lt b c = true → lt a c = true)
    (htotal : ∀ a b, a ≠ b → lt a b = true ∨ lt b a = true)
    (a : α) {l : List α} (hl : l.Pairwise (fun x y => lt x y = true)) :
    (insSorted lt a l).Pairwise (fun x y => lt x y = true) := by
  induction l with
  | nil => simp [insSorted]
  | cons b t ih =>
      rcases List.pairwise_cons.mp hl with ⟨hb, ht⟩
      simp only [insSorted]
      by_cases hab : a = b
      · subst hab
        rw [if_pos rfl]
        exact hl
      · rw [if_neg hab]
        by_cases hlt : lt a b = true
        · rw [if_pos hlt]
          refine List.pairwise_cons.mpr ⟨?_, hl⟩
          intro y hy
          rcases List.mem_cons.mp hy with hy | hy
          · subst hy; exact hlt
          · exact htrans a b y hlt (hb y hy)
        · rw [if_neg hlt]
          refine List.pairwise_cons.mpr ⟨?_, ih ht⟩
          intro y hy
          rcases (mem_insSorted lt a y t).mp hy with hy | hy
          · rw [hy]
            rcases htotal a b hab with h | h
            · exact absurd h hlt
            · exact h
          · exact hb y hy

theorem pairwise_sortedSet {α : Type} [DecidableEq α] {lt : α → α → Bool}
    (htrans : ∀ a b c, lt a b = true → lt b c = true → lt a c = true)
    (htotal : ∀ a b, a ≠ b → lt a b = true ∨ lt b a = true)
    (l : List α) :
    (sortedSet lt l).Pairwise (fun x y => lt x y = true) := by
  induction l with
  | nil => simp [sortedSet]
  | cons b t ih => exact pairwise_insSorted htrans htotal b ih

theorem sorted_eq_of_mem_iff {α : Type} {lt : α → α → Bool}
    (htrans : ∀ a b c, lt a b = true → lt b c = true → lt a c = true)
    (hirrefl : ∀ a, lt a a = false) :
    ∀ {l₁ l₂ : List α}, l₁.Pairwise (fun x y => lt x y = true) →
      l₂.Pairwise (fun x y => lt x y = true) →
      (∀ x, x ∈ l₁ ↔ x ∈ l₂) → l₁ = l₂ := by
  intro l₁
  induction l₁ with
  | nil =>
      intro l₂ _ _ hmem
      cases l₂ with
      | nil => rfl
      | cons b t =>
          exact absurd ((hmem b).mpr (List.mem_cons_self b t))
            (List.not_mem_nil b)
  | cons a t₁ ih =>
      intro l₂ h₁ h₂ hmem
      cases l₂ with
      | nil =>
          exact absurd ((hmem a).mp (List.mem_cons_self a t₁))
            (List.not_mem_nil a)
      | cons b t₂ =>
          rcases List.pairwise_cons.mp h₁ with ⟨ha, ht₁⟩
          rcases List.pairwise_cons.mp h₂ with ⟨hb, ht₂⟩
          have hab : a = b := by
            rcases List.mem_cons.mp ((hmem a).mp (List.mem_cons_self a t₁)) with
              h | h
            · exact h
            · rcases List.mem_cons.mp ((hmem b).mpr (List.mem_cons_self b t₂))
                with h' | h'
              · exact h'.symm
              · have hbb := htrans b a b (hb a h) (ha b h')
                rw [hirrefl b] at hbb
                exact absurd hbb Bool.false_ne_true
          subst hab
          have htails : ∀ x, x ∈ t₁ ↔ x ∈ t₂ := by
            intro x
            constructor
            · intro hx
              rcases List.mem_cons.mp ((hmem x).mp (List.mem_cons_of_mem a hx))
                with h | h
              · subst h
                have hxx := ha x hx
                rw [hirrefl x] at hxx
                exact absurd hxx Bool.false_ne_true
              · exact h
            · intro hx
              rcases List.mem_cons.mp ((hmem x).mpr (List.mem_cons_of_mem a hx))
                with h | h
              · subst h
                have hxx := hb x hx
                rw [hirrefl x] at hxx
                exact absurd hxx Bool.false_ne_true
              · exact h
          rw [ih ht₁ ht₂ htails]

theorem sortedSet_eq_of_mem_iff {α : Type} [DecidableEq α] {lt : α → α → Bool}
    (htrans : ∀ a b c, lt a b = true → lt b c = true → lt a c = true)
    (htotal : ∀ a b, a ≠ b → lt a b = true ∨ lt b a = true)
    (hirrefl : ∀ a, lt a a = false) {l₁ l₂ : List α}
    (hmem : ∀ x, x ∈ l₁ ↔ x ∈ l₂) : sortedSet lt l₁ = sortedSet lt l₂ := by
  refine sorted_eq_of_mem_iff htrans hirrefl
    (pairwise_sortedSet htrans htotal l₁)
    (pairwise_sortedSet htrans htotal l₂) ?_
  intro x
  rw [mem_sortedSet, mem_sortedSet]
  exact hmem x

theorem nodup_sortedSet {α : Type} [DecidableEq α] {lt : α → α → Bool}
    (htrans : ∀ a b c, lt a b = true → lt b c = true → lt a c = true)
    (htotal : ∀ a b, a ≠ b → lt a b = true ∨ lt b a = true)
    (hirrefl : ∀ a, lt a a = false) (l : List α) :
    (sortedSet lt l).Nodup := by
  have hp := pairwise_sortedSet htrans htotal l
  refine List.Pairwise.imp ?_ hp
  intro a b hab
  intro he
  subst he
  rw [hirrefl a] at hab
  exact absurd hab Bool.false_ne_true

theorem perm_insOrd {α : Type} (le : α → α → Bool) (a : α) (l : List α) :
    (insOrd le a l).Perm (a :: l) := by
  induction l with
  | nil => simp [insOrd]
  | cons b t ih =>
      simp only [insOrd]
      by_cases hle : le a b = true
      · rw [if_pos hle]
      · rw [if_neg hle]
        exact (List.Perm.cons b ih).trans (List.Perm.swap a b t)

theorem perm_sortBy {α : Type} (le : α → α → Bool) (l : List α) :
    (sortBy le l).Perm l := by
  induction l with
  | nil => simp [sortBy]
  | cons b t ih =>
      simp only [sortBy, List.foldr] at ih ⊢
      exact ((perm_insOrd le b _).trans (List.Perm.cons b ih))

theorem pairwise_insOrd {α : Type} {le : α → α → Bool}
    (htrans : ∀ a b c, le a b = true → le b c = true → le a c = true)
    (htotal : ∀ a b, le a b = true ∨ le b a = true)
    (a : α) {l : List α} (hl : l.Pairwise (fun x y => le x y = true)) :
    (insOrd le a l).Pairwise (fun x y => le x y = true) := by
  induction l with
  | nil => simp [insOrd]
  | cons b t ih =>
      rcases List.pairwise_cons.mp hl with ⟨hb, ht⟩
      simp only [insOrd]
      by_cases hle : le a b = true
      · rw [if_pos hle]
        refine List.pairwise_cons.mpr ⟨?_, hl⟩
        intro y hy
        rcases List.mem_cons.mp hy with hy | hy
        · rw [hy]; exact hle
        · exact htrans a b y hle (hb y hy)
      · rw [if_neg hle]
        refine List.pairwise_cons.mpr ⟨?_, ih ht⟩
        intro y hy
        have hy' := (perm_insOrd le a t).mem_iff.mp hy
        rcases List.mem_cons.mp hy' with hy' | hy'
        · rw [hy']
          rcases htotal a b with h | h
          · exact absurd h hle
          · exact h
        · exact hb y hy'

theorem pairwise_sortBy {α : Type} {le : α → α → Bool}
    (htrans : ∀ a b c, le a b = true → le b c = true → le a c = true)
    (htotal : ∀ a b, le a b = true ∨ le b a = true) (l : List α) :
    (sortBy le l).Pairwise (fun x y => le x y = true) := by
  induction l with
  | nil => simp [sortBy]
  | cons b t ih => exact pairwise_insOrd htrans htotal b ih

theorem scanParts_eq_ok {st : List Partition} (h : readableAll st) :
    scanParts st = Except.ok (idxRows st) := by
  induction st with
  | nil => simp [scanParts, idxRows]
  | cons p ps ih =>
      have hp : p.data.isSome = true := h p (List.mem_cons_self p ps)
      have hps : readableAll ps := fun q hq => h q (List.mem_cons_of_mem p hq)
      rcases hd : p.data with _ | chunks
      · rw [hd] at hp; simp at hp
      · simp only [scanParts, hd, ih hps, idxRows, List.map_cons,
          List.flatten_cons]

theorem keyRecs_cons (p : Partition) (ps : List Partition) (k : EventKey) :
    keyRecs (p :: ps) k =
      (pKeyRecs p k).map (fun r => (p.name, r)) ++ keyRecs ps k := by
  simp only [keyRecs, srcComplete, srcRecs, partRecs, pKeyRecs,
    List.map_cons, List.flatten_cons, List.filter_append, List.filter_map]
  rfl

theorem keyRecs_nil (k : EventKey) : keyRecs [] k = [] := rfl

theorem filter_map_mk_nil {α β : Type} [DecidableEq α] (key : β → α)
    (mk : α → β) (hkey : ∀ k, key (mk k) = k) (k : α) :
    ∀ ks : List α, k ∉ ks →
      (ks.map mk).filter (fun b => decide (key b = k)) = [] := by
  intro ks
  induction ks with
  | nil => intro _; rfl
  | cons a t ih =>
      intro hk
      have hak : a ≠ k := fun h => hk (h ▸ List.mem_cons_self a t)
      simp only [List.map_cons, List.filter_cons, hkey, decide_eq_true_eq]
      rw [if_neg (by simpa using hak)]
      exact ih (fun h => hk (List.mem_cons_of_mem a h))

theorem filter_map_mk {α β : Type} [DecidableEq α] (key : β → α)
    (mk : α → β) (hkey : ∀ k, key (mk k) = k) (k : α) :
    ∀ ks : List α, ks.Nodup →
      (ks.map mk).filter (fun b => decide (key b = k)) =
        if k ∈ ks then [mk k] else [] := by
  intro ks
  induction ks with
  | nil => intro _; simp
  | cons a t ih =>
      intro hnd
      rcases List.nodup_cons.mp hnd with ⟨ha, ht⟩
      simp only [List.map_cons, List.filter_cons, hkey, decide_eq_true_eq]
      by_cases hak : a = k
      · subst hak
        rw [if_pos rfl, filter_map_mk_nil key mk hkey a t ha]
        rw [if_pos (List.mem_cons_self a t)]
      · rw [if_neg (by simpa using hak), ih ht]
        by_cases hkt : k ∈ t
        · rw [if_pos hkt, if_pos (List.mem_cons_of_mem a hkt)]
        · rw [if_neg hkt, if_neg (by
            intro h
            rcases List.mem_cons.mp h with h | h
            · exact hak h.symm
            · exact hkt h)]

theorem chunkSummary_filter (fname : String) (c : List Rec) (k : EventKey) :
    (chunkSummary fname c).filter (fun pr => decide (pr.key = k)) =
      if k ∈ sortedSet keyLt ((c.filter completeKey).map recKey) then
        [⟨k, listMaxO ((ckOf c k).map (·.date_ops_end)),
          firstO ((ckOf c k).map (·.event_id)), fname⟩]
      else [] := by
  have hnd := nodup_sortedSet keyLt_trans keyLt_total keyLt_irrefl
    ((c.filter completeKey).map recKey)
  exact filter_map_mk PartialRow.key _ (fun _ => rfl) k _ hnd

theorem mem_sortedKeys_iff (c : List Rec) (k : EventKey) :
    k ∈ sortedSet keyLt ((c.filter completeKey).map recKey) ↔
      ckOf c k ≠ [] := by
  rw [mem_sortedSet]
  simp only [ckOf, ne_eq, List.filter_eq_nil_iff, List.mem_map,
    decide_eq_true_eq, not_forall]
  constructor
  · rintro ⟨r, hr, hk⟩
    exact ⟨r, hr, by simp [hk]⟩
  · rintro ⟨r, hr, hk⟩
    exact ⟨r, hr, by simpa using hk⟩

theorem chunk_end (fname : String) (c : List Rec) (k : EventKey) :
    listMaxO
      (((chunkSummary fname c).filter (fun pr => decide (pr.key = k))).map
        (·.date_ops_end)) =
      listMaxO ((ckOf c k).map (·.date_ops_end)) := by
  rw [chunkSummary_filter]
  by_cases hk : k ∈ sortedSet keyLt ((c.filter completeKey).map recKey)
  · rw [if_pos hk]
    simp only [List.map_cons, List.map_nil, listMaxO, List.foldr]
    exact omax_none_right _
  · rw [if_neg hk]
    have : ckOf c k = [] := by
      by_contra hne
      exact hk ((mem_sortedKeys_iff c k).mpr hne)
    rw [this]
    rfl

theorem chunk_rep (fname : String) (c : List Rec) (k : EventKey) :
    firstO
      (((chunkSummary fname c).filter (fun pr => decide (pr.key = k))).map
        (·.event_id)) =
      firstO ((ckOf c k).map (·.event_id)) := by
  rw [chunkSummary_filter]
  by_cases hk : k ∈ sortedSet keyLt ((c.filter completeKey).map recKey)
  · rw [if_pos hk]
    simp only [List.map_cons, List.map_nil, firstO, List.foldr]
    exact firstO_none_right _
  · rw [if_neg hk]
    have : ckOf c k = [] := by
      by_contra hne
      exact hk ((mem_sortedKeys_iff c k).mpr hne)
    rw [this]
    rfl

theorem chunk_file (fname : String) (c : List Rec) (k : EventKey) :
    ((chunkSummary fname c).filter (fun pr => decide (pr.key = k))).map
        (·.filename) =
      if ckOf c k ≠ [] then [fname] else [] := by
  rw [chunkSummary_filter]
  by_cases hk : k ∈ sortedSet keyLt ((c.filter completeKey).map recKey)
  · rw [if_pos hk, if_pos ((mem_sortedKeys_iff c k).mp hk)]
    rfl
  · rw [if_neg hk, if_neg (by
      intro hne
      exact hk ((mem_sortedKeys_iff c k).mpr hne))]
    rfl

theorem chunk_key_mem (fname : String) (c : List Rec) (k : EventKey) :
    k ∈ (chunkSummary fname c).map (·.key) ↔ ckOf c k ≠ [] := by
  rw [← mem_sortedKeys_iff]
  simp only [chunkSummary, List.map_map]
  have : (PartialRow.key ∘ fun k => PartialRow.mk k
      (listMaxO (((c.filter completeKey).filter
        (fun r => decide (recKey r = k))).map (·.date_ops_end)))
      (firstO (((c.filter completeKey).filter
        (fun r => decide (recKey r = k))).map (·.event_id)))
      fname) = id := by
    funext x
    rfl
  rw [this, List.map_id]

theorem part_end_gen (fname : String) (k : EventKey) (L : List (List Rec)) :
    listMaxO
      ((((L.map (chunkSummary fname)).flatten).filter
        (fun pr => decide (pr.key = k))).map (·.date_ops_end)) =
      listMaxO (((L.map (fun c => ckOf c k)).flatten).map
        (·.date_ops_end)) := by
  induction L with
  | nil => rfl
  | cons c L ih =>
      simp only [List.map_cons, List.flatten_cons, List.filter_append,
        List.map_append, listMaxO_append]
      rw [chunk_end, ih]

theorem part_rep_gen (fname : String) (k : EventKey) (L : List (List Rec)) :
    firstO
      ((((L.map (chunkSummary fname)).flatten).filter
        (fun pr => decide (pr.key = k))).map (·.event_id)) =
      firstO (((L.map (fun c => ckOf c k)).flatten).map (·.event_id)) := by
  induction L with
  | nil => rfl
  | cons c L ih =>
      simp only [List.map_cons, List.flatten_cons, List.filter_append,
        List.map_append, firstO_append]
      rw [chunk_rep, ih]

theorem part_file_gen (fname : String) (k : EventKey) (x : String)
    (L : List (List Rec)) :
    (x ∈ (((L.map (chunkSummary fname)).flatten).filter
        (fun pr => decide (pr.key = k))).map (·.filename)) ↔
      (x = fname ∧ (L.map (fun c => ckOf c k)).flatten ≠ []) := by
  induction L with
  | nil => simp
  | cons c L ih =>
      simp only [List.map_cons, List.flatten_cons, List.filter_append,
        List.map_append, List.mem_append]
      rw [chunk_file, ih]
      by_cases hck : ckOf c k ≠ []
      · rw [if_pos hck]
        simp only [List.mem_singleton, ne_eq, List.append_eq_nil, not_and]
        constructor
        · rintro (h | ⟨h, _⟩)
          · exact ⟨h, fun hc => absurd hc hck⟩
          · exact ⟨h, fun hc => absurd hc hck⟩
        · rintro ⟨h, _⟩
          exact Or.inl h
      · rw [if_neg hck]
        push_neg at hck
        simp only [List.not_mem_nil, false_or, ne_eq, List.append_eq_nil,
          hck, true_and, not_and]

theorem part_key_gen (fname : String) (k : EventKey)
    (L : List (List Rec)) :
    (k ∈ ((L.map (chunkSummary fname)).flatten).map (·.key)) ↔
      (L.map (fun c => ckOf c k)).flatten ≠ [] := by
  induction L with
  | nil => simp
  | cons c L ih =>
      simp only [List.map_cons, List.flatten_cons, List.map_append,
        List.mem_append]
      rw [chunk_key_mem, ih]
      simp only [ne_eq, List.append_eq_nil, not_and]
      constructor
      · rintro (h | h)
        · intro hc
          exact absurd hc h
        · intro _
          exact h
      · intro h
        by_cases hck : ckOf c k = []
        · exact Or.inr (h hck)
        · exact Or.inl hck

theorem pKeyRecs_eq_flatten (p : Partition) (k : EventKey) :
    pKeyRecs p k = ((p.data.getD []).map (fun c => ckOf c k)).flatten := by
  simp only [pKeyRecs, ckOf, List.filter_flatten, List.map_map]
  rfl

theorem part_end (p : Partition) (k : EventKey) :
    listMaxO
      (((partSummary p).filter (fun pr => decide (pr.key = k))).map
        (·.date_ops_end)) =
      listMaxO ((pKeyRecs p k).map (·.date_ops_end)) := by
  rw [pKeyRecs_eq_flatten]
  exact part_end_gen p.name k (p.data.getD [])

theorem part_rep (p : Partition) (k : EventKey) :
    firstO
      (((partSummary p).filter (fun pr => decide (pr.key = k))).map
        (·.event_id)) =
      firstO ((pKeyRecs p k).map (·.event_id)) := by
  rw [pKeyRecs_eq_flatten]
  exact part_rep_gen p.name k (p.data.getD [])

theorem part_file (p : Partition) (k : EventKey) (x : String) :
    (x ∈ ((partSummary p).filter (fun pr => decide (pr.key = k))).map
        (·.filename)) ↔
      (x = p.name ∧ pKeyRecs p k ≠ []) := by
  rw [pKeyRecs_eq_flatten]
  exact part_file_gen p.name k x (p.data.getD [])

theorem part_key (p : Partition) (k : EventKey) :
    (k ∈ (partSummary p).map (·.key)) ↔ pKeyRecs p k ≠ [] := by
  rw [pKeyRecs_eq_flatten]
  exact part_key_gen p.name k (p.data.getD [])

theorem idxRows_cons (p : Partition) (ps : List Partition) :
    idxRows (p :: ps) = partSummary p ++ idxRows ps := by
  simp [idxRows]

theorem canonEnd_cons (p : Partition) (ps : List Partition) (k : EventKey) :
    canonEnd (p :: ps) k =
      omax (listMaxO ((pKeyRecs p k).map (·.date_ops_end)))
        (canonEnd ps k) := by
  simp only [canonEnd, keyRecs_cons, List.map_append, listMaxO_append,
    List.map_map]
  rfl

theorem canonRep_cons (p : Partition) (ps : List Partition) (k : EventKey) :
    canonRep (p :: ps) k =
      ofirst (firstO ((pKeyRecs p k).map (·.event_id))) (canonRep ps k) := by
  simp only [canonRep, keyRecs_cons, List.map_append, firstO_append,
    List.map_map]
  rfl

theorem total_end (st : List Partition) (k : EventKey) :
    listMaxO
      (((idxRows st).filter (fun pr => decide (pr.key = k))).map
        (·.date_ops_end)) = canonEnd st k := by
  induction st with
  | nil => rfl
  | cons p ps ih =>
      rw [idxRows_cons, canonEnd_cons]
      simp only [List.filter_append, List.map_append, listMaxO_append]
      rw [part_end, ih]

theorem total_rep (st : List Partition) (k : EventKey) :
    firstO
      (((idxRows st).filter (fun pr => decide (pr.key = k))).map
        (·.event_id)) = canonRep st k := by
  induction st with
  | nil => rfl
  | cons p ps ih =>
      rw [idxRows_cons, canonRep_cons]
      simp only [List.filter_append, List.map_append, firstO_append]
      rw [part_rep, ih]

theorem total_file (st : List Partition) (k : EventKey) (x : String) :
    (x ∈ ((idxRows st).filter (fun pr => decide (pr.key = k))).map
        (·.filename)) ↔
      x ∈ (keyRecs st k).map Prod.fst := by
  induction st with
  | nil => simp [idxRows, keyRecs, srcComplete, srcRecs]
  | cons p ps ih =>
      rw [idxRows_cons, keyRecs_cons]
      simp only [List.filter_append, List.map_append, List.mem_append,
        List.map_map]
      rw [part_file, ih]
      constructor
      · rintro (⟨hx, hne⟩ | h)
        · refine Or.inl ?_
          rcases List.exists_mem_of_ne_nil _ hne with ⟨r, hr⟩
          exact List.mem_map.mpr ⟨r, hr, hx.symm⟩
        · exact Or.inr h
      · rintro (h | h)
        · rcases List.mem_map.mp h with ⟨r, hr, hx⟩
          refine Or.inl ⟨hx.symm, ?_⟩
          intro hnil
          rw [hnil] at hr
          exact List.not_mem_nil r hr
        · exact Or.inr h

theorem total_key (st : List Partition) (k : EventKey) :
    (k ∈ (idxRows st).map (·.key)) ↔ keyRecs st k ≠ [] := by
  induction st with
  | nil => simp [idxRows, keyRecs, srcComplete, srcRecs]
  | cons p ps ih =>
      rw [idxRows_cons, keyRecs_cons]
      simp only [List.map_append, List.mem_append, ne_eq,
        List.append_eq_nil, not_and, List.map_eq_nil_iff]
      rw [part_key, ih]
      constructor
      · rintro (h | h)
        · intro hc
          exact absurd hc h
        · intro _
          exact h
      · intro h
        by_cases hck : pKeyRecs p k = []
        · exact Or.inr (h hck)
        · exact Or.inl hck

theorem keyRecs_ne_nil_iff (st : List Partition) (k : EventKey) :
    keyRecs st k ≠ [] ↔
      k ∈ (srcComplete st).map (fun pr => recKey pr.2) := by
  simp only [keyRecs, ne_eq, List.filter_eq_nil_iff, decide_eq_true_eq,
    not_forall, List.mem_map]
  constructor
  · rintro ⟨pr, hpr, hk⟩
    exact ⟨pr, hpr, by simpa using hk⟩
  · rintro ⟨pr, hpr, hk⟩
    exact ⟨pr, hpr, by simp [hk]⟩

theorem idxKeys_eq_canonKeys (st : List Partition) :
    sortedSet keyLt ((idxRows st).map (·.key)) = canonKeys st := by
  refine sortedSet_eq_of_mem_iff keyLt_trans keyLt_total keyLt_irrefl ?_
  intro k
  rw [total_key, keyRecs_ne_nil_iff]

theorem mkEntry_eq_canonEntry (st : List Partition) (i : Nat)
    (k : EventKey) : mkEntry (idxRows st) i k = canonEntry st i k := by
  simp only [mkEntry, canonEntry]
  rw [total_end, total_rep]
  have hfiles : collect_files
      (((idxRows st).filter (fun pr => decide (pr.key = k))).map
        (·.filename)) = canonFiles st k := by
    refine sortedSet_eq_of_mem_iff strLt_trans strLt_total strLt_irrefl ?_
    intro x
    exact total_file st k x
  rw [hfiles]

theorem mkEntries_eq_canonEntries (st : List Partition) (i : Nat)
    (ks : List EventKey) :
    mkEntries (idxRows st) i ks = canonEntries st i ks := by
  induction ks generalizing i with
  | nil => rfl
  | cons k ks ih =>
      simp only [mkEntries, canonEntries]
      rw [mkEntry_eq_canonEntry, ih]

theorem finalize_eq_canonTable (st : List Partition) :
    finalizeIndex (idxRows st) = canonTable st := by
  rw [finalizeIndex, canonTable, idxKeys_eq_canonKeys,
    mkEntries_eq_canonEntries]

theorem idxRows_eq_nil_iff (st : List Partition) :
    idxRows st = [] ↔ srcComplete st = [] := by
  constructor
  · intro h
    by_contra hne
    rcases List.exists_mem_of_ne_nil _ hne with ⟨pr, hpr⟩
    have hk : keyRecs st (recKey pr.2) ≠ [] := by
      rw [keyRecs_ne_nil_iff]
      exact List.mem_map.mpr ⟨pr, hpr, rfl⟩
    have := (total_key st (recKey pr.2)).mpr hk
    rw [h] at this
    exact List.not_mem_nil _ this
  · intro h
    by_contra hne
    rcases List.exists_mem_of_ne_nil _ hne with ⟨pr, hpr⟩
    have hk : pr.key ∈ (idxRows st).map (·.key) :=
      List.mem_map.mpr ⟨pr, hpr, rfl⟩
    have := (keyRecs_ne_nil_iff st pr.key).mp ((total_key st pr.key).mp hk)
    rcases List.mem_map.mp this with ⟨qr, hqr, _⟩
    rw [h] at hqr
    exact List.not_mem_nil qr hqr

/-- The bridge theorem: on a source whose files are all readable,
build_index is the canonical index of the flattened record stream (or the
matching error). -/
theorem build_index_canon {st : List Partition} (h : readableAll st) :
    build_index st =
      if st.isEmpty then Except.error BuildError.noCsvFiles
      else if srcComplete st = [] then Except.error BuildError.emptySource
      else Except.ok (canonTable st) := by
  rw [build_index, scanParts_eq_ok h]
  by_cases hst : st.isEmpty
  · rw [if_pos hst, if_pos hst]
  · rw [if_neg hst, if_neg hst]
    by_cases hsc : srcComplete st = []
    · rw [if_pos hsc]
      have : idxRows st = [] := (idxRows_eq_nil_iff st).mpr hsc
      simp [this]
    · rw [if_neg hsc]
      have hne : ¬ idxRows st = [] := by
        rw [idxRows_eq_nil_iff st]
        exact hsc
      simp only [List.isEmpty_iff]
      rw [if_neg hne, finalize_eq_canonTable]

theorem perm_flatten {α : Type} {L₁ L₂ : List (List α)} (h : L₁.Perm L₂) :
    L₁.flatten.Perm L₂.flatten := by
  induction h with
  | nil => exact List.Perm.refl _
  | cons a _ ih => exact ih.append_left a
  | swap a b t =>
      simp only [List.flatten_cons, ← List.append_assoc]
      exact (List.perm_append_comm).append_right t.flatten
  | trans _ _ ih₁ ih₂ => exact ih₁.trans ih₂

theorem srcRecs_perm {st₁ st₂ : List Partition} (h : SameSource st₁ st₂) :
    (srcRecs st₁).Perm (srcRecs st₂) := by
  have hmap : ∀ st : List Partition,
      st.map partRecs =
        (st.map partFlat).map (fun nr => nr.2.map (fun r => (nr.1, r))) := by
    intro st
    rw [List.map_map]
    rfl
  have hp : (st₁.map partRecs).Perm (st₂.map partRecs) := by
    rw [hmap, hmap]
    exact h.map _
  exact perm_flatten hp

theorem srcComplete_perm {st₁ st₂ : List Partition}
    (h : SameSource st₁ st₂) :
    (srcComplete st₁).Perm (srcComplete st₂) :=
  (srcRecs_perm h).filter _

theorem keyRecs_perm {st₁ st₂ : List Partition} (h : SameSource st₁ st₂)
    (k : EventKey) : (keyRecs st₁ k).Perm (keyRecs st₂ k) :=
  (srcComplete_perm h).filter _

theorem canonEnd_invariant {st₁ st₂ : List Partition}
    (h : SameSource st₁ st₂) (k : EventKey) :
    canonEnd st₁ k = canonEnd st₂ k :=
  listMaxO_perm ((keyRecs_perm h k).map _)

theorem canonFiles_invariant {st₁ st₂ : List Partition}
    (h : SameSource st₁ st₂) (k : EventKey) :
    canonFiles st₁ k = canonFiles st₂ k := by
  refine sortedSet_eq_of_mem_iff strLt_trans strLt_total strLt_irrefl ?_
  intro x
  exact ((keyRecs_perm h k).map _).mem_iff

theorem canonKeys_invariant {st₁ st₂ : List Partition}
    (h : SameSource st₁ st₂) : canonKeys st₁ = canonKeys st₂ := by
  refine sortedSet_eq_of_mem_iff keyLt_trans keyLt_total keyLt_irrefl ?_
  intro k
  exact ((srcComplete_perm h).map _).mem_iff

theorem canonEntries_erase_invariant {st₁ st₂ : List Partition}
    (h : SameSource st₁ st₂) (i : Nat) (ks : List EventKey) :
    (canonEntries st₁ i ks).map IndexEntry.erase =
      (canonEntries st₂ i ks).map IndexEntry.erase := by
  induction ks generalizing i with
  | nil => rfl
  | cons k ks ih =>
      simp only [canonEntries, List.map_cons]
      rw [ih]
      have : (canonEntry st₁ i k).erase = (canonEntry st₂ i k).erase := by
        simp only [canonEntry, IndexEntry.erase]
        rw [canonEnd_invariant h, canonFiles_invariant h]
      rw [this]

theorem canonTable_erase_invariant {st₁ st₂ : List Partition}
    (h : SameSource st₁ st₂) :
    (canonTable st₁).map IndexEntry.erase =
      (canonTable st₂).map IndexEntry.erase := by
  rw [canonTable, canonTable, canonKeys_invariant h]
  exact canonEntries_erase_invariant h 0 (canonKeys st₂)

theorem undigs_natDigs (n : Nat) : undigs (natDigs n) = n := by
  induction n using Nat.strong_induction_on with
  | _ n ih =>
      rw [natDigs]
      by_cases h : n < 10
      · rw [if_pos h]
        simp [undigs]
      · rw [if_neg h]
        have hlt : n / 10 < n := Nat.div_lt_self (by omega) (by omega)
        have := ih (n / 10) hlt
        simp only [undigs, List.foldl_append, List.foldl] at this ⊢
        rw [this]
        omega

theorem natDigs_inj {m n : Nat} (h : natDigs m = natDigs n) : m = n := by
  have hm := undigs_natDigs m
  have hn := undigs_natDigs n
  rw [← hm, ← hn, h]

theorem natDigs_lt (n : Nat) : ∀ d ∈ natDigs n, d < 10 := by
  induction n using Nat.strong_induction_on with
  | _ n ih =>
      rw [natDigs]
      by_cases h : n < 10
      · rw [if_pos h]
        intro d hd
        rw [List.mem_singleton.mp hd]
        exact h
      · rw [if_neg h]
        intro d hd
        rcases List.mem_append.mp hd with hd | hd
        · exact ih (n / 10) (Nat.div_lt_self (by omega) (by omega)) d hd
        · rw [List.mem_singleton.mp hd]
          omega

theorem digitChar_inj_lt :
    ∀ m < 10, ∀ n < 10, Nat.digitChar m = Nat.digitChar n → m = n := by
  decide

theorem map_digitChar_inj :
    ∀ l₁ l₂ : List Nat, (∀ d ∈ l₁, d < 10) → (∀ d ∈ l₂, d < 10) →
      l₁.map Nat.digitChar = l₂.map Nat.digitChar → l₁ = l₂ := by
  intro l₁
  induction l₁ with
  | nil =>
      intro l₂ _ _ h
      cases l₂ with
      | nil => rfl
      | cons b t => simp at h
  | cons a t ih =>
      intro l₂ h₁ h₂ h
      cases l₂ with
      | nil => simp at h
      | cons b t₂ =>
          simp only [List.map_cons, List.cons.injEq] at h
          have ha := h₁ a (List.mem_cons_self a t)
          have hb := h₂ b (List.mem_cons_self b t₂)
          have hab := digitChar_inj_lt a ha b hb h.1
          rw [hab, ih t₂ (fun d hd => h₁ d (List.mem_cons_of_mem a hd))
            (fun d hd => h₂ d (List.mem_cons_of_mem b hd)) h.2]

theorem toDigitsCore_eq :
    ∀ n fuel acc, n + 1 ≤ fuel →
      Nat.toDigitsCore 10 fuel n acc =
        (natDigs n).map Nat.digitChar ++ acc := by
  intro n
  induction n using Nat.strong_induction_on with
  | _ n ih =>
      intro fuel acc hf
      cases fuel with
      | zero => omega
      | succ f =>
          simp only [Nat.toDigitsCore]
          by_cases h : n < 10
          · have hz : n / 10 = 0 := Nat.div_eq_of_lt h
            rw [if_pos hz, natDigs, if_pos h]
            have : n % 10 = n := Nat.mod_eq_of_lt h
            rw [this]
            rfl
          · have hz : ¬ n / 10 = 0 := by omega
            rw [if_neg hz]
            have hlt : n / 10 < n := Nat.div_lt_self (by omega) (by omega)
            have hrec := ih (n / 10) hlt f (Nat.digitChar (n % 10) :: acc)
              (by omega)
            rw [hrec]
            conv_rhs => rw [natDigs]
            rw [if_neg h]
            simp

theorem natRepr_eq (n : Nat) :
    Nat.repr n = ((natDigs n).map Nat.digitChar).asString := by
  rw [Nat.repr, Nat.toDigits, toDigitsCore_eq n (n + 1) [] (by omega)]
  rw [List.append_nil]

theorem natRepr_inj {m n : Nat} (h : Nat.repr m = Nat.repr n) : m = n := by
  rw [natRepr_eq, natRepr_eq] at h
  have hdata := congrArg String.data h
  simp only [List.asString] at hdata
  exact natDigs_inj
    (map_digitChar_inj (natDigs m) (natDigs n) (natDigs_lt m)
      (natDigs_lt n) hdata)

theorem optStrLeTop_total (a b : Option String) :
    optStrLeTop a b = true ∨ optStrLeTop b a = true := by
  cases a <;> cases b <;> simp [optStrLeTop]
  exact le_total _ _

theorem optStrLeTop_trans (a b c : Option String)
    (h₁ : optStrLeTop a b = true) (h₂ : optStrLeTop b c = true) :
    optStrLeTop a c = true := by
  cases a <;> cases b <;> cases c <;>
    simp [optStrLeTop] at h₁ h₂ ⊢ <;>
    try exact le_trans h₁ h₂

theorem optTsLtTop_trans (a b c : Option Nat)
    (h₁ : optTsLtTop a b = true) (h₂ : optTsLtTop b c = true) :
    optTsLtTop a c = true := by
  cases a <;> cases b <;> cases c <;>
    simp [optTsLtTop] at h₁ h₂ ⊢ <;> omega

theorem optTsLtTop_asymm (a b : Option Nat)
    (h : optTsLtTop a b = true) : optTsLtTop b a = false := by
  cases a <;> cases b <;> simp [optTsLtTop] at h ⊢ <;> omega

theorem rowLe_total (a b : Rec) : rowLe a b = true ∨ rowLe b a = true := by
  by_cases h : a.time_from = b.time_from
  · rw [rowLe, if_pos h, rowLe, if_pos h.symm]
    exact optStrLeTop_total _ _
  · rw [rowLe, if_neg h, rowLe, if_neg (fun hh => h hh.symm)]
    rcases ha : a.time_from with _ | x <;> rcases hb : b.time_from with _ | y
    · exact absurd (ha.trans hb.symm) h
    · right
      rfl
    · left
      rfl
    · rw [ha, hb] at h
      simp only [optTsLtTop, decide_eq_true_eq]
      have hxy : x ≠ y := fun he => h (by rw [he])
      omega

theorem rowLe_trans (a b c : Rec) (h₁ : rowLe a b = true)
    (h₂ : rowLe b c = true) : rowLe a c = true := by
  by_cases hab : a.time_from = b.time_from <;>
    by_cases hbc : b.time_from = c.time_from
  · rw [rowLe, if_pos hab] at h₁
    rw [rowLe, if_pos hbc] at h₂
    rw [rowLe, if_pos (hab.trans hbc)]
    exact optStrLeTop_trans _ _ _ h₁ h₂
  · rw [rowLe, if_neg hbc] at h₂
    have hac : ¬ a.time_from = c.time_from := by
      rw [hab]
      exact hbc
    rw [rowLe, if_neg hac, hab]
    exact h₂
  · rw [rowLe, if_neg hab] at h₁
    have hac : ¬ a.time_from = c.time_from := by
      rw [← hbc]
      exact hab
    rw [rowLe, if_neg hac, ← hbc]
    exact h₁
  · rw [rowLe, if_neg hab] at h₁
    rw [rowLe, if_neg hbc] at h₂
    have hac : ¬ a.time_from = c.time_from := by
      intro he
      have := optTsLtTop_asymm _ _ h₁
      rw [← he] at h₂
      rw [h₂] at this
      exact Bool.true_eq_false.mp this
    rw [rowLe, if_neg hac]
    exact optTsLtTop_trans _ _ _ h₁ h₂

theorem endDescLe_total (a b : IndexEntry) :
    endDescLe a b = true ∨ endDescLe b a = true := by
  rcases ha : a.date_ops_end with _ | x <;>
    rcases hb : b.date_ops_end with _ | y <;>
    simp [endDescLe, ha, hb]
  omega

theorem endDescLe_trans (a b c : IndexEntry) (h₁ : endDescLe a b = true)
    (h₂ : endDescLe b c = true) : endDescLe a c = true := by
  rcases ha : a.date_ops_end with _ | x <;>
    rcases hb : b.date_ops_end with _ | y <;>
    rcases hc : c.date_ops_end with _ | z <;>
    simp [endDescLe, ha, hb, hc] at h₁ h₂ ⊢ <;> omega

theorem detailPred_eq_spec (well : String) (obj code : Option String)
    (d : Nat) (r : Rec) :
    detailPred well obj code (some d) r = resolveSpecPred well obj code d r
    := rfl

theorem gatherDetail_ok (well : String) (obj code : Option String)
    (d : Nat) (st : List Partition) :
    ∀ files : List String, (∀ f ∈ files, readableOrAbsent st f) →
      gatherDetail well obj code (some d) st files =
        Except.ok (resolveSpecRows well obj code d files st) := by
  intro files
  induction files with
  | nil => intro _; rfl
  | cons f fs ih =>
      intro h
      have hf : readableOrAbsent st f := h f (List.mem_cons_self f fs)
      have hfs := ih (fun g hg => h g (List.mem_cons_of_mem f hg))
      cases hp : findFile st f with
      | none =>
          simp only [gatherDetail, hp, hfs, resolveSpecRows, List.map_cons,
            List.flatten_cons, srcRowsOfFile]
          rfl
      | some p =>
          have hread := hf p hp
          rcases hd : p.data with _ | chunks
          · rw [hd] at hread
            simp at hread
          · have hfun : detailPred well obj code (some d) =
                resolveSpecPred well obj code d := funext fun _ => rfl
            simp only [gatherDetail, hp, hd, hfs]
            simp only [resolveSpecRows, List.map_cons, List.flatten_cons,
              srcRowsOfFile, hp, hd, Option.getD_some, List.filter_flatten,
              hfun]

theorem load_event_detail_ok (well : String) (obj code : Option String)
    (d : Nat) (files : List String) (st : List Partition)
    (h : ∀ f ∈ files, readableOrAbsent st f) :
    load_event_detail well obj code (some d) files st =
      Except.ok
        (sortBy rowLe (resolveSpecRows well obj code (dayOf d) files st))
    := by
  have hmap : (some d).map dayOf = some (dayOf d) := rfl
  rw [load_event_detail, hmap,
    gatherDetail_ok well obj code (dayOf d) st files h]

theorem countP_le_one_of_nodup {α : Type} [DecidableEq α] (x : α) :
    ∀ l : List α, l.Nodup →
      l.countP (fun y => decide (y = x)) ≤ 1 := by
  intro l
  induction l with
  | nil => intro _; simp
  | cons a t ih =>
      intro hnd
      rcases List.nodup_cons.mp hnd with ⟨ha, ht⟩
      rw [List.countP_cons]
      by_cases hax : a = x
      · subst hax
        have : t.countP (fun y => decide (y = a)) = 0 := by
          rw [List.countP_eq_zero]
          intro y hy
          simp only [decide_eq_true_eq]
          intro he
          rw [he] at hy
          exact ha hy
        simp [this]
      · have hd : (decide (a = x)) = false := by simp [hax]
        simp only [hd, if_false]
        simpa using ih ht

theorem countP_eq_one_of_nodup_mem {α : Type} [DecidableEq α] (x : α) :
    ∀ l : List α, l.Nodup → x ∈ l →
      l.countP (fun y => decide (y = x)) = 1 := by
  intro l
  induction l with
  | nil => intro _ h; simp at h
  | cons a t ih =>
      intro hnd hx
      rcases List.nodup_cons.mp hnd with ⟨ha, ht⟩
      rw [List.countP_cons]
      by_cases hax : a = x
      · subst hax
        have : t.countP (fun y => decide (y = a)) = 0 := by
          rw [List.countP_eq_zero]
          intro y hy
          simp only [decide_eq_true_eq]
          intro he
          rw [he] at hy
          exact ha hy
        simp [this]
      · rcases List.mem_cons.mp hx with h | h
        · exact absurd h.symm hax
        · have hd : (decide (a = x)) = false := by simp [hax]
          simp only [hd, if_false]
          simpa using ih ht h

theorem IndexEntry_key_canonEntry (st : List Partition) (i : Nat)
    (k : EventKey) : (canonEntry st i k).key = k := rfl

theorem canonEntries_countP (st : List Partition) (k : EventKey) :
    ∀ (ks : List EventKey) (i : Nat),
      (canonEntries st i ks).countP (fun e => decide (e.key = k)) =
        ks.countP (fun x => decide (x = k)) := by
  intro ks
  induction ks with
  | nil => intro i; rfl
  | cons a t ih =>
      intro i
      simp only [canonEntries, List.countP_cons, ih,
        IndexEntry_key_canonEntry]

theorem canonEntries_fields (st : List Partition) :
    ∀ (ks : List EventKey) (i : Nat), ∀ e ∈ canonEntries st i ks,
      e.date_ops_start = e.key.date_ops_start ∧
      e.date_ops_end = canonEnd st e.key ∧
      e.event_id = canonRep st e.key := by
  intro ks
  induction ks with
  | nil => intro i e he; simp [canonEntries] at he
  | cons a t ih =>
      intro i e he
      rcases List.mem_cons.mp he with h | h
      · subst h
        exact ⟨rfl, rfl, rfl⟩
      · exact ih (i + 1) e h

theorem keyRecs_sub_srcComplete {st : List Partition} {k : EventKey}
    (h : keyRecs st k ≠ []) : srcComplete st ≠ [] := by
  intro hc
  apply h
  rw [keyRecs, hc]
  rfl

theorem srcComplete_ne_imp_st_ne {st : List Partition}
    (h : srcComplete st ≠ []) : st ≠ [] := by
  intro hc
  subst hc
  exact h rfl

theorem build_index_ok_eq {st : List Partition} {t : List IndexEntry}
    (hwf : readableAll st) (hb : build_index st = Except.ok t) :
    t = canonTable st ∧ srcComplete st ≠ [] := by
  rw [build_index_canon hwf] at hb
  by_cases h1 : st.isEmpty
  · rw [if_pos h1] at hb
    exact absurd hb (by simp)
  · rw [if_neg h1] at hb
    by_cases h2 : srcComplete st = []
    · rw [if_pos h2] at hb
      exact absurd hb (by simp)
    · rw [if_neg h2] at hb
      exact ⟨(Except.ok.inj hb).symm, h2⟩

theorem mkEntries_map_id (idx : List PartialRow) :
    ∀ (ks : List EventKey) (i : Nat),
      (mkEntries idx i ks).map (fun e => e.idx_id) =
        (List.range' i ks.length).map Nat.repr := by
  intro ks
  induction ks with
  | nil => intro i; rfl
  | cons a t ih =>
      intro i
      simp only [mkEntries, List.map_cons, List.length_cons, List.range',
        ih]
      rfl

theorem mkEntries_map_key (idx : List PartialRow) :
    ∀ (ks : List EventKey) (i : Nat),
      (mkEntries idx i ks).map IndexEntry.key = ks := by
  intro ks
  induction ks with
  | nil => intro i; rfl
  | cons a t ih =>
      intro i
      simp only [mkEntries, List.map_cons, ih]
      rfl

theorem build_index_ok_finalize {st : List Partition}
    {t : List IndexEntry} (hb : build_index st = Except.ok t) :
    ∃ idx : List PartialRow,
      t = mkEntries idx 0 (sortedSet keyLt (idx.map (·.key))) := by
  rw [build_index] at hb
  by_cases h1 : st.isEmpty
  · rw [if_pos h1] at hb
    exact absurd hb (by simp)
  · rw [if_neg h1] at hb
    rcases hs : scanParts st with e | idx
    · rw [hs] at hb
      exact absurd hb (by simp)
    · rw [hs] at hb
      have hb' : (if idx.isEmpty then Except.error BuildError.emptySource
          else Except.ok (finalizeIndex idx)) = Except.ok t := hb
      by_cases h2 : idx.isEmpty
      · rw [if_pos h2] at hb'
        exact absurd hb' (by simp)
      · rw [if_neg h2] at hb'
        exact ⟨idx, ((Except.ok.inj hb').symm : t = finalizeIndex idx)⟩

theorem scanParts_error_of_bad {st : List Partition}
    (h : ∃ p ∈ st, p.data = none) :
    ∃ e, scanParts st = Except.error e := by
  induction st with
  | nil =>
      rcases h with ⟨p, hp, _⟩
      simp at hp
  | cons q qs ih =>
      rcases hq : q.data with _ | chunks
      · exact ⟨BuildError.ioError q.name, by simp [scanParts, hq]⟩
      · rcases h with ⟨p, hp, hpd⟩
        rcases List.mem_cons.mp hp with h' | h'
        · subst h'
          rw [hq] at hpd
          exact absurd hpd (by simp)
        · rcases ih ⟨p, h', hpd⟩ with ⟨e, he⟩
          refine ⟨e, ?_⟩
          simp [scanParts, hq, he]

/-- C1 counterexample: recA and recB share well W, objective O, code C and
the calendar day of their date_ops_start (minutes 480 and 720 of day 0),
yet build_index produces two separate entries for that
(well, objective, code, day) group, because the groupby key is the exact
parsed date_ops_start timestamp, not the day.  This refutes the claim that
such a group yields exactly one entry with the minimum start. -/
theorem C1_counterexample :
    build_index stOne = Except.ok tblDay ∧
      dayOf 480 = dayOf 720 ∧
      tblDay.countP (fun e =>
        decide (e.well_legal_name = "W" ∧ e.event_objective_1 = "O" ∧
          e.event_code = "C" ∧ dayOf e.date_ops_start = 0)) = 2 :=
  ⟨rfl, rfl, by decide⟩

/-- C1 (amended): build_index groups complete-key records by the exact
parsed date_ops_start timestamp, not by calendar day.  For every composite
key (well, objective, code, exact date_ops_start) carried by at least one
complete-key record of a readable source, the built index has exactly one
entry with that key; its date_ops_start is the group's shared timestamp —
trivially the minimum of the non-null starts, which all coincide — its
date_ops_end is the null-skipping maximum of the group's date_ops_end
values, and a group whose date_ops_end values are all null yields a null
date_ops_end with the build still succeeding, never an error. -/
theorem C1_one_entry_per_key (st : List Partition) (hwf : readableAll st)
    (k : EventKey) (hk : keyRecs st k ≠ []) :
    ∃ tbl, build_index st = Except.ok tbl ∧
      tbl.countP (fun e => decide (e.key = k)) = 1 ∧
      (∀ e ∈ tbl, e.key = k →
        e.date_ops_start = k.date_ops_start ∧
        e.date_ops_end = canonEnd st k) ∧
      (∀ pr ∈ keyRecs st k, pr.2.date_ops_start = some k.date_ops_start)
    := by
  have hsc := keyRecs_sub_srcComplete hk
  have hne := srcComplete_ne_imp_st_ne hsc
  have hb : build_index st = Except.ok (canonTable st) := by
    rw [build_index_canon hwf,
      if_neg (by simpa [List.isEmpty_iff] using hne), if_neg hsc]
  refine ⟨canonTable st, hb, ?_, ?_, ?_⟩
  · rw [canonTable, canonEntries_countP]
    refine countP_eq_one_of_nodup_mem k (canonKeys st) ?_ ?_
    · exact nodup_sortedSet keyLt_trans keyLt_total keyLt_irrefl _
    · rw [canonKeys, mem_sortedSet, ← keyRecs_ne_nil_iff]
      exact hk
  · intro e he hek
    rcases canonEntries_fields st (canonKeys st) 0 e he with ⟨h1, h2, _⟩
    rw [hek] at h1 h2
    exact ⟨h1, h2⟩
  · intro pr hpr
    rcases List.mem_filter.mp hpr with ⟨hmem, hkeq⟩
    have hcomp : completeKey pr.2 = true := (List.mem_filter.mp hmem).2
    have hkeq' : recKey pr.2 = k := by simpa using hkeq
    have hsome : pr.2.date_ops_start.isSome = true := by
      simp only [completeKey, Bool.and_eq_true] at hcomp
      exact hcomp.2
    rcases hds : pr.2.date_ops_start with _ | v
    · rw [hds] at hsome
      simp at hsome
    · have hv : k.date_ops_start = v := by
        rw [← hkeq']
        simp [recKey, hds]
      rw [hv]

/-- C1 witness: on stAgg the key (W, O, C, 480) is carried by recA and
recAe; the theorem applies and yields the unique aggregated entry. -/
theorem C1_witness :
    readableAll stAgg ∧ keyRecs stAgg ⟨"W", "O", "C", 480⟩ ≠ [] ∧
      (∃ tbl, build_index stAgg = Except.ok tbl ∧
        tbl.countP (fun e => decide (e.key = ⟨"W", "O", "C", 480⟩)) = 1 ∧
        (∀ e ∈ tbl, e.key = ⟨"W", "O", "C", 480⟩ →
          e.date_ops_start = 480 ∧
          e.date_ops_end = canonEnd stAgg ⟨"W", "O", "C", 480⟩) ∧
        (∀ pr ∈ keyRecs stAgg ⟨"W", "O", "C", 480⟩,
          pr.2.date_ops_start = some 480)) :=
  ⟨by decide, by decide,
    C1_one_entry_per_key stAgg (by decide) ⟨"W", "O", "C", 480⟩ (by decide)⟩

/-- C2 counterexample: on stRep the earliest-enumerated record of the key
(W, O, C, 480) is recNoId with a null event_id, yet the built entry carries
E1 from the later record: pandas groupby "first" skips nulls, so the
entry's event_id is the first non-null one, not the value of the
earliest-enumerated record sharing the key. -/
theorem C2_counterexample :
    build_index stRep =
      Except.ok
        [⟨"W", "O", "C", 480, some 100, ["a.csv"], some "E1", "0"⟩] ∧
      (keyRecs stRep ⟨"W", "O", "C", 480⟩).head? =
        some ("a.csv", recNoId) ∧
      recNoId.event_id = none ∧
      (some "E1" : Option String) ≠ recNoId.event_id :=
  ⟨rfl, rfl, rfl, by decide⟩

/-- C2 (amended): with the per-file record content held fixed, splitting a
readable source into any chunk granularity and enumerating its files in any
order yields the same index except possibly the representative event_id of
each entry; and that representative always equals the first non-null
event_id among the key's records in enumeration order (null when every one
is null), not necessarily the event_id of the earliest-enumerated record. -/
theorem C2_split_invariance (st₁ st₂ : List Partition)
    (h₁ : readableAll st₁) (h₂ : readableAll st₂)
    (hs : SameSource st₁ st₂) (t₁ t₂ : List IndexEntry)
    (hb₁ : build_index st₁ = Except.ok t₁)
    (hb₂ : build_index st₂ = Except.ok t₂) :
    t₁.map IndexEntry.erase = t₂.map IndexEntry.erase ∧
      (∀ e ∈ t₁, e.event_id = canonRep st₁ e.key) ∧
      (∀ e ∈ t₂, e.event_id = canonRep st₂ e.key) := by
  rcases build_index_ok_eq h₁ hb₁ with ⟨ht₁, _⟩
  rcases build_index_ok_eq h₂ hb₂ with ⟨ht₂, _⟩
  subst ht₁
  subst ht₂
  refine ⟨canonTable_erase_invariant hs, ?_, ?_⟩
  · intro e he
    exact (canonEntries_fields st₁ (canonKeys st₁) 0 e he).2.2
  · intro e he
    exact (canonEntries_fields st₂ (canonKeys st₂) 0 e he).2.2

/-- C2 witness: the same file content in one chunk versus two chunks builds
the identical table tblDay, and each entry's event_id is the first non-null
one of its key. -/
theorem C2_witness :
    readableAll stOne ∧ readableAll stTwo ∧ SameSource stOne stTwo ∧
      build_index stOne = Except.ok tblDay ∧
      build_index stTwo = Except.ok tblDay ∧
      (tblDay.map IndexEntry.erase = tblDay.map IndexEntry.erase ∧
        (∀ e ∈ tblDay, e.event_id = canonRep stOne e.key) ∧
        (∀ e ∈ tblDay, e.event_id = canonRep stTwo e.key)) := by
  have hs : SameSource stOne stTwo := by
    unfold SameSource
    rw [show stOne.map partFlat = stTwo.map partFlat from rfl]
  exact ⟨by decide, by decide, hs, rfl, rfl,
    C2_split_invariance stOne stTwo (by decide) (by decide) hs tblDay
      tblDay rfl rfl⟩

/-- C3 (confirmed): for readable-or-deleted locators, load_event_detail
succeeds with exactly the rows of the locator files whose well equals the
entry's well, whose objective and code equal the present key components (an
absent component matches every row), and whose date_ops_start falls on the
calendar day of the entry's start — concatenated across the locators and
arranged sorted by (time_from, step_no) ascending with nulls last. -/
theorem C3_resolve_rows (well : String) (obj code : Option String)
    (d : Nat) (files : List String) (st : List Partition)
    (h : ∀ f ∈ files, readableOrAbsent st f) :
    ∃ out, load_event_detail well obj code (some d) files st =
        Except.ok out ∧
      out.Perm (resolveSpecRows well obj code (dayOf d) files st) ∧
      out.Pairwise (fun a b => rowLe a b = true) :=
  ⟨_, load_event_detail_ok well obj code d files st h,
    perm_sortBy rowLe _, pairwise_sortBy rowLe_trans rowLe_total _⟩

/-- C3 witness: resolving the entry (W, O, C, start 480) against its
locator a.csv on stOne. -/
theorem C3_witness :
    (∀ f ∈ ["a.csv"], readableOrAbsent stOne f) ∧
      (∃ out, load_event_detail "W" (some "O") (some "C") (some 480)
          ["a.csv"] stOne = Except.ok out ∧
        out.Perm (resolveSpecRows "W" (some "O") (some "C") (dayOf 480)
          ["a.csv"] stOne) ∧
        out.Pairwise (fun a b => rowLe a b = true)) := by
  have h : ∀ f ∈ ["a.csv"], readableOrAbsent stOne f := by
    intro f hf p hp
    have hf' : f = "a.csv" := List.mem_singleton.mp hf
    subst hf'
    have hfind : findFile stOne "a.csv" =
        some ⟨"a.csv", some [[recA, recB]]⟩ := rfl
    rw [hfind] at hp
    rw [← Option.some.inj hp]
    rfl
  exact ⟨h, C3_resolve_rows "W" (some "O") (some "C") 480 ["a.csv"] stOne h⟩

/-- C4 counterexample: on a source holding a readable a.csv and an
unreadable bad.csv, build_index propagates the read error of bad.csv
instead of skipping it with a warning and building from the remaining
file: an unreadable partition is fatal to the whole build. -/
theorem C4_counterexample :
    build_index stBad = Except.error (BuildError.ioError "bad.csv") := rfl

/-- C4 (amended): a partition that cannot be opened aborts the whole index
build with the propagated read error, so no index at all is produced; only
load_event_detail skips a missing file with a warning and continues. -/
theorem C4_unreadable_aborts (st : List Partition)
    (h : ∃ p ∈ st, p.data = none) :
    ∃ e, build_index st = Except.error e := by
  rcases scanParts_error_of_bad h with ⟨e, he⟩
  refine ⟨e, ?_⟩
  rw [build_index]
  have hne : ¬ st.isEmpty = true := by
    rcases h with ⟨p, hp, _⟩
    simp only [List.isEmpty_iff]
    intro hc
    subst hc
    simp at hp
  rw [if_neg hne, he]

/-- C4 witness: the amended statement applied to stBad. -/
theorem C4_witness :
    (∃ p ∈ stBad, p.data = none) ∧
      ∃ e, build_index stBad = Except.error e :=
  ⟨by decide, C4_unreadable_aborts stBad (by decide)⟩

/-- C5 (confirmed): selecting an entryId absent from the built index makes
the route's lookup yield none — the distinguishable "stale or invalid
selection" outcome, under which no detail load is attempted and the page
renders without a detail table — rather than proceeding with some entry. -/
theorem C5_unknown_id (t : List IndexEntry) (well evento_sel : String)
    (h : ∀ e ∈ t, e.idx_id ≠ evento_sel) :
    selectEvent t well evento_sel = none := by
  rw [selectEvent, List.find?_eq_none]
  intro e he
  simp only [listEventsFor] at he
  have hm : e ∈ t := by
    have h1 := (perm_sortBy endDescLe
      (t.filter (fun x => decide (x.well_legal_name = well)))).mem_iff.mp he
    exact (List.mem_filter.mp h1).1
  simp only [decide_eq_true_eq]
  exact h e hm

/-- C5 witness: the id 7 is absent from tblDay, so the lookup yields
none. -/
theorem C5_witness :
    (∀ e ∈ tblDay, e.idx_id ≠ "7") ∧
      selectEvent tblDay "W" "7" = none :=
  ⟨by decide, C5_unknown_id tblDay "W" "7" (by decide)⟩

/-- C6 (confirmed): on a non-empty readable source none of whose records
carries a complete composite key, the cached build surfaces the
EmptySourceError-style RuntimeError and stores nothing in the module cache,
so no partial index becomes visible to callers. -/
theorem C6_empty_source (st : List Partition) (hne : st ≠ [])
    (hwf : readableAll st) (hempty : srcComplete st = []) :
    build_index_cached none st =
      (Except.error BuildError.emptySource, none) := by
  have hb : build_index st = Except.error BuildError.emptySource := by
    rw [build_index_canon hwf,
      if_neg (by simpa [List.isEmpty_iff] using hne), if_pos hempty]
  simp [build_index_cached, hb]

/-- C6 witness: stNoKeys is readable and has no complete-key record. -/
theorem C6_witness :
    stNoKeys ≠ [] ∧ readableAll stNoKeys ∧ srcComplete stNoKeys = [] ∧
      build_index_cached none stNoKeys =
        (Except.error BuildError.emptySource, none) :=
  ⟨by decide, by decide, by decide,
    C6_empty_source stNoKeys (by decide) (by decide) (by decide)⟩

/-- C7 (confirmed): once a first build has succeeded and cached its table,
every further build call returns exactly that table and cache, and does so
for any source state whatsoever — the source is never consulted again, so
no partition is rescanned — bit-identical to the first result. -/
theorem C7_cached_rebuild (st : List Partition) (t : List IndexEntry)
    (c : Option (List IndexEntry))
    (h : build_index_cached none st = (Except.ok t, c)) :
    c = some t ∧
      ∀ st₂ : List Partition, build_index_cached c st₂ = (Except.ok t, c)
    := by
  rcases hb : build_index st with e | t'
  · simp [build_index_cached, hb] at h
  · have h' : ((Except.ok t' : Except BuildError (List IndexEntry)),
        some t') = (Except.ok t, c) := by
      rw [← h]
      simp [build_index_cached, hb]
    have ht : t' = t := Except.ok.inj (congrArg Prod.fst h')
    have hc : c = some t' := (congrArg Prod.snd h').symm
    subst ht
    subst hc
    exact ⟨rfl, fun st₂ => rfl⟩

/-- C7 witness: the first build on stOne succeeds and caches tblDay; the
second call returns the identical table for any later source state. -/
theorem C7_witness :
    build_index_cached none stOne = (Except.ok tblDay, some tblDay) ∧
      (some tblDay = some tblDay ∧
        ∀ st₂ : List Partition,
          build_index_cached (some tblDay) st₂ =
            (Except.ok tblDay, some tblDay)) :=
  ⟨rfl, C7_cached_rebuild stOne tblDay (some tblDay) rfl⟩

/-- C9 (confirmed): when every locator recorded for an entry resolves to no
file at all (each referenced source file deleted since the build),
load_event_detail returns an empty row sequence, not an error. -/
theorem C9_deleted_locators (well : String) (obj code : Option String)
    (date_start : Option Nat) (files : List String) (st : List Partition)
    (h : ∀ f ∈ files, findFile st f = none) :
    load_event_detail well obj code date_start files st = Except.ok []
    := by
  have hg : ∀ fs : List String, (∀ f ∈ fs, findFile st f = none) →
      gatherDetail well obj code (date_start.map dayOf) st fs =
        Except.ok [] := by
    intro fs
    induction fs with
    | nil => intro _; rfl
    | cons f fs ih =>
        intro hh
        have h1 := hh f (List.mem_cons_self f fs)
        simp only [gatherDetail, h1]
        exact ih (fun g hg' => hh g (List.mem_cons_of_mem f hg'))
  rw [load_event_detail, hg files h]
  rfl

/-- C9 witness: the single locator gone.csv no longer exists in stOne. -/
theorem C9_witness :
    (∀ f ∈ ["gone.csv"], findFile stOne f = none) ∧
      load_event_detail "W" (some "O") (some "C") (some 480) ["gone.csv"]
        stOne = Except.ok [] :=
  ⟨by decide,
    C9_deleted_locators "W" (some "O") (some "C") (some 480) ["gone.csv"]
      stOne (by decide)⟩

/-- C10 (confirmed): any successfully built index lists its idx_id values
as exactly the decimal strings of 0..n-1 in order, its entries ascend
strictly in the composite key, and no two entries share an idx_id. -/
theorem C10_idx_ids (st : List Partition) (t : List IndexEntry)
    (hb : build_index st = Except.ok t) :
    t.map (fun e => e.idx_id) = (List.range t.length).map Nat.repr ∧
      List.Pairwise (fun a b => keyLt a.key b.key = true) t ∧
      ∀ id : String, t.countP (fun e => decide (e.idx_id = id)) ≤ 1 := by
  rcases build_index_ok_finalize hb with ⟨idx, ht⟩
  subst ht
  have hlen : (mkEntries idx 0 (sortedSet keyLt (idx.map (·.key)))).length
      = (sortedSet keyLt (idx.map (·.key))).length := by
    have := congrArg List.length
      (mkEntries_map_key idx (sortedSet keyLt (idx.map (·.key))) 0)
    simpa using this
  refine ⟨?_, ?_, ?_⟩
  · rw [mkEntries_map_id idx (sortedSet keyLt (idx.map (·.key))) 0, hlen,
      List.range_eq_range']
  · have hp := pairwise_sortedSet keyLt_trans keyLt_total
      (idx.map (·.key))
    rw [← mkEntries_map_key idx (sortedSet keyLt (idx.map (·.key))) 0]
      at hp
    exact List.pairwise_map.mp hp
  · intro id
    have hnd : ((List.range' 0
        (sortedSet keyLt (idx.map (·.key))).length).map Nat.repr).Nodup :=
      List.Nodup.map (fun a b hab => natRepr_inj hab)
        (List.nodup_range' 0 (sortedSet keyLt (idx.map (·.key))).length)
    have h1 : (mkEntries idx 0 (sortedSet keyLt (idx.map (·.key)))).countP
        (fun e => decide (e.idx_id = id)) =
        ((mkEntries idx 0 (sortedSet keyLt (idx.map (·.key)))).map
          (fun e => e.idx_id)).countP (fun s => decide (s = id)) := by
      rw [List.countP_map]
      rfl
    rw [h1, mkEntries_map_id idx (sortedSet keyLt (idx.map (·.key))) 0]
    exact countP_le_one_of_nodup id _ hnd

/-- C10 witness: the two-entry index built from stOne. -/
theorem C10_witness :
    build_index stOne = Except.ok tblDay ∧
      (tblDay.map (fun e => e.idx_id) =
          (List.range tblDay.length).map Nat.repr ∧
        List.Pairwise (fun a b => keyLt a.key b.key = true) tblDay ∧
        ∀ id : String,
          tblDay.countP (fun e => decide (e.idx_id = id)) ≤ 1) :=
  ⟨rfl, C10_idx_ids stOne tblDay rfl⟩
